import Mathlib

/-!
Verification of the transaction/ack runtime fragments of the benthos stream
engine, as a shallow embedding in Lean.

The definitions below are translated from the Go sources:
* `internal/impl/generic/output_broker_fan_out.go` (fan-out output broker)
* `internal/old/processor/archive.go` (archive processor)
* `internal/old/output/resource.go` (resource output)
* `internal/old/output/writer/redis_list.go` (redis list writer)
* the MQTT writer (`internal/old/output/writer`)

Machine integers are modelled as `Int`/`Nat`; fallible Go returns are
`Option`/`Except`; errors are `Option E` with `none` standing for Go `nil`.
-/

/-- Error sentinels surfaced at component boundaries
(`internal/component`: `ErrAlreadyStarted`, `ErrTimeout`, `ErrNotConnected`,
`ErrPipeNotFound`). -/
inductive ComponentError where
  | errAlreadyStarted
  | errTimeout
  | errNotConnected
  | errPipeNotFound
deriving DecidableEq

/-! ## Fan-out output broker: ack aggregation

`fanOutOutputBroker.loop` initialises `pendingResponses := int64(len(outputTSChans))`
per consumed transaction and hands each of the `N` children a copy of the batch
with the callback

```
if atomic.AddInt64(&pendingResponses, -1) == 0 || err != nil {
    atomic.StoreInt64(&pendingResponses, 0)
    ackErr := ts.Ack(ctx, err)
    ...
}
```

We model a run as the sequence of the child ack callbacks in the order in which
they fire (each callback body taken as one atomic step), carrying the error each
child reported (`none` = Go `nil`).  The state records the shared
`pendingResponses` counter and the list of upstream `ts.Ack` invocations made so
far (in order, with the error value each one carried). -/

structure FanOutAckState (E : Type) where
  pendingResponses : Int
  upstreamAcks : List (Option E)
deriving DecidableEq

/-- One child ack callback firing with error `err`, exactly as in the loop body
quoted above: decrement the counter; if it hit zero or the error is non-nil,
zero the counter and invoke the upstream `ts.Ack` with `err`. -/
def fanOutChildAck {E : Type} (st : FanOutAckState E) (err : Option E) :
    FanOutAckState E :=
  if st.pendingResponses - 1 = 0 ∨ err.isSome = true then
    { pendingResponses := 0, upstreamAcks := st.upstreamAcks ++ [err] }
  else
    { pendingResponses := st.pendingResponses - 1, upstreamAcks := st.upstreamAcks }

/-- Fire a sequence of child ack callbacks in order. -/
def fanOutAckSeq {E : Type} : FanOutAckState E → List (Option E) → FanOutAckState E
  | st, [] => st
  | st, e :: rest => fanOutAckSeq (fanOutChildAck st e) rest

/-- A complete (or in-progress) run of the broker on one transaction with `n`
children: the counter starts at `n` and the child callbacks fire in the order
given by `errs` (one entry per callback that has fired so far). -/
def fanOutRun {E : Type} (n : Nat) (errs : List (Option E)) : FanOutAckState E :=
  fanOutAckSeq { pendingResponses := (n : Int), upstreamAcks := [] } errs

/-- Once the counter is non-positive (i.e. after a first upstream ack has been
forced by an error), a nil child ack can never retrigger the upstream ack, but
every further erroring child ack does: the upstream acks appended from such a
state are exactly the non-nil child errors. -/
lemma fanOutAckSeq_acks_of_nonpos {E : Type} :
    ∀ (errs : List (Option E)) (p : Int) (acks : List (Option E)), p ≤ 0 →
      (fanOutAckSeq ⟨p, acks⟩ errs).upstreamAcks
        = acks ++ errs.filter (fun e => e.isSome) := by
  intro errs
  induction errs with
  | nil => intro p acks _; simp [fanOutAckSeq]
  | cons a rest ih =>
    intro p acks hp
    cases a with
    | none =>
      have hcond : ¬ (p - 1 = 0 ∨ (Option.isSome (none : Option E)) = true) := by
        simp only [Option.isSome_none, Bool.false_eq_true, or_false]
        omega
      rw [fanOutAckSeq, fanOutChildAck, if_neg hcond]
      rw [ih (p - 1) acks (by omega)]
      simp
    | some e =>
      have hcond : p - 1 = 0 ∨ (Option.isSome (some e)) = true := by
        simp
      rw [fanOutAckSeq, fanOutChildAck, if_pos hcond]
      rw [ih 0 (acks ++ [some e]) (by omega)]
      simp

/-- While the counter still exceeds the number of remaining child acks and all
of the remaining child acks are nil, nothing triggers: the counter just counts
down. -/
lemma fanOutAckSeq_of_lt {E : Type} :
    ∀ (errs : List (Option E)) (p : Int) (acks : List (Option E)),
      (∀ e ∈ errs, e.isNone = true) → (errs.length : Int) < p →
      fanOutAckSeq ⟨p, acks⟩ errs = ⟨p - errs.length, acks⟩ := by
  intro errs
  induction errs with
  | nil => intro p acks _ _; simp [fanOutAckSeq]
  | cons a rest ih =>
    intro p acks hnil hlt
    have ha : a = none := by
      have := hnil a (by simp)
      simpa [Option.isNone_iff_eq_none] using this
    subst ha
    have hlen : ((rest.length : Int)) + 1 < p := by
      have := hlt
      simp only [List.length_cons] at this
      push_cast at this ⊢
      omega
    have hcond : ¬ (p - 1 = 0 ∨ (Option.isSome (none : Option E)) = true) := by
      simp only [Option.isSome_none, Bool.false_eq_true, or_false]
      omega
    rw [fanOutAckSeq, fanOutChildAck, if_neg hcond]
    rw [ih (p - 1) acks (fun e he => hnil e (by simp [he])) (by omega)]
    congr 1
    simp only [List.length_cons]
    push_cast
    ring

/-- Characterisation of a full run in which the counter starts exactly at the
number of child acks: if every child acked nil, exactly one upstream ack of
`none` is made (by the last child); otherwise the upstream acks are exactly the
non-nil child errors, in order. -/
lemma fanOutAckSeq_acks_of_exact {E : Type} :
    ∀ (errs : List (Option E)) (acks : List (Option E)), errs ≠ [] →
      (fanOutAckSeq ⟨(errs.length : Int), acks⟩ errs).upstreamAcks
        = acks ++ (if errs.all (fun e => e.isNone) = true
                   then [none]
                   else errs.filter (fun e => e.isSome)) := by
  intro errs
  induction errs with
  | nil => intro acks h; exact absurd rfl h
  | cons a rest ih =>
    intro acks _
    by_cases hre : rest = []
    · subst hre
      cases a with
      | none => simp [fanOutAckSeq, fanOutChildAck]
      | some e => simp [fanOutAckSeq, fanOutChildAck]
    · have hrlen : 1 ≤ rest.length := List.length_pos.mpr hre
      cases a with
      | none =>
        have hcond : ¬ (((none :: rest : List (Option E)).length : Int) - 1 = 0
            ∨ (Option.isSome (none : Option E)) = true) := by
          simp only [Option.isSome_none, Bool.false_eq_true, or_false,
            List.length_cons]
          push_cast
          omega
        rw [fanOutAckSeq]
        have hstep : fanOutChildAck (⟨((none :: rest : List (Option E)).length : Int),
            acks⟩ : FanOutAckState E) none
            = ⟨(rest.length : Int), acks⟩ := by
          rw [fanOutChildAck, if_neg hcond]
          congr 1
          simp only [List.length_cons]
          push_cast
          ring
        rw [hstep]
        rw [ih acks hre]
        simp only [List.all_cons, Option.isNone_none, Bool.true_and,
          List.filter_cons, Option.isSome_none, Bool.false_eq_true, if_false]
      | some e =>
        have hcond : ((some e :: rest : List (Option E)).length : Int) - 1 = 0
            ∨ (Option.isSome (some e)) = true := by simp
        rw [fanOutAckSeq]
        have hstep : fanOutChildAck (⟨((some e :: rest : List (Option E)).length : Int),
            acks⟩ : FanOutAckState E) (some e)
            = ⟨0, acks ++ [some e]⟩ := by
          rw [fanOutChildAck, if_pos hcond]
        rw [hstep]
        rw [fanOutAckSeq_acks_of_nonpos rest 0 (acks ++ [some e]) le_rfl]
        have hnall : ((some e :: rest).all fun e => e.isNone) = false := by
          simp
        rw [hnall]
        simp

/-- Full-run characterisation of the upstream acks of the fan-out broker. -/
lemma fanOutRun_acks {E : Type} (n : Nat) (errs : List (Option E))
    (hlen : errs.length = n) (hn : 1 ≤ n) :
    (fanOutRun n errs).upstreamAcks
      = (if errs.all (fun e => e.isNone) = true
         then [none]
         else errs.filter (fun e => e.isSome)) := by
  subst hlen
  have hne : errs ≠ [] := by
    cases errs with
    | nil => simp at hn
    | cons a rest => simp
  have := fanOutAckSeq_acks_of_exact errs [] hne
  simpa [fanOutRun] using this

/-- A list of options is all-`none` exactly when filtering for the `some`
entries leaves nothing. -/
lemma all_isNone_iff_filter_isSome_eq_nil {E : Type} (errs : List (Option E)) :
    (errs.all fun e => e.isNone) = true ↔ (errs.filter fun e => e.isSome) = [] := by
  rw [List.all_eq_true, List.filter_eq_nil_iff]
  constructor
  · intro h a ha
    have := h a ha
    simp only [Option.isNone_iff_eq_none] at this
    simp [this]
  · intro h a ha
    have := h a ha
    cases a with
    | none => simp
    | some e => simp at this

/-- Claim C1, amended: for a fan-out broker with `n ≥ 1` children, over every
order of the `n` child ack callbacks, the upstream ack callback is invoked
exactly once whenever at most one child acks with a non-nil error; in general
it is invoked `max 1 k` times, where `k` is the number of children that acked
with a non-nil error. -/
theorem fanOut_upstream_ack_count (E : Type) (n : Nat) (errs : List (Option E))
    (hlen : errs.length = n) (hn : 1 ≤ n) :
    (fanOutRun n errs).upstreamAcks.length
      = max 1 (errs.filter fun e => e.isSome).length := by
  rw [fanOutRun_acks n errs hlen hn]
  by_cases h : (errs.all fun e => e.isNone) = true
  · rw [if_pos h]
    rw [all_isNone_iff_filter_isSome_eq_nil] at h
    simp [h]
  · rw [if_neg h]
    have hne : (errs.filter fun e => e.isSome) ≠ [] := by
      intro hc
      exact h ((all_isNone_iff_filter_isSome_eq_nil errs).mpr hc)
    have hpos : 1 ≤ (errs.filter fun e => e.isSome).length :=
      List.length_pos.mpr hne
    omega

/-- Counterexample to claim C1 as stated: with `n = 2` children that both ack
with non-nil errors, the upstream ack callback is invoked twice, not exactly
once. -/
theorem fanOut_upstream_ack_count_counterexample :
    ¬ ((fanOutRun 2 [some 0, some 1] : FanOutAckState Nat).upstreamAcks.length
        = 1) := by
  decide

/-- Witness for `fanOut_upstream_ack_count` at `n = 2`,
`errs = [none, some 3]`. -/
theorem fanOut_upstream_ack_count_witness :
    ([none, some 3] : List (Option Nat)).length = 2 ∧ 1 ≤ 2 ∧
      (fanOutRun 2 [none, some 3] : FanOutAckState Nat).upstreamAcks.length
        = max 1 (([none, some 3] : List (Option Nat)).filter
            fun e => e.isSome).length :=
  ⟨rfl, by decide, fanOut_upstream_ack_count Nat 2 [none, some 3] rfl (by decide)⟩

/-- Claim C2, amended: for every run of the fan-out broker with `n ≥ 1`
children in which all `n` child ack callbacks fire, every upstream ack carries
nil exactly when all child copies were acked with nil, and the *first* upstream
ack carries the first non-nil error observed (or nil when there is none). -/
theorem fanOut_upstream_ack_error (E : Type) (n : Nat) (errs : List (Option E))
    (hlen : errs.length = n) (hn : 1 ≤ n) :
    (fanOutRun n errs).upstreamAcks.head?
        = some (((errs.filter fun e => e.isSome).head?).getD none) ∧
      ∀ e ∈ (fanOutRun n errs).upstreamAcks,
        (e = none ↔ (errs.all fun x => x.isNone) = true) := by
  rw [fanOutRun_acks n errs hlen hn]
  by_cases h : (errs.all fun e => e.isNone) = true
  · have hfil : (errs.filter fun e => e.isSome) = [] :=
      (all_isNone_iff_filter_isSome_eq_nil errs).mp h
    rw [if_pos h, hfil]
    refine ⟨rfl, ?_⟩
    intro e he
    simp only [List.mem_singleton] at he
    subst he
    simp [h]
  · have hfil : (errs.filter fun e => e.isSome) ≠ [] := by
      intro hc
      exact h ((all_isNone_iff_filter_isSome_eq_nil errs).mpr hc)
    rw [if_neg h]
    constructor
    · cases hf : errs.filter fun e => e.isSome with
      | nil => exact absurd hf hfil
      | cons f fs => simp
    · intro e he
      have hsome : e.isSome = true := (List.mem_filter.mp he).2
      constructor
      · intro hnone
        subst hnone
        simp at hsome
      · intro hall
        exact absurd hall h

/-- Counterexample to claim C2 as stated: with `n = 2` children acking the
distinct errors `some 0` (first observed) and then `some 1`, an upstream ack is
made carrying `some 1`, which is not the first error observed. -/
theorem fanOut_upstream_ack_error_counterexample :
    ¬ (∀ e ∈ (fanOutRun 2 [some 0, some 1] : FanOutAckState Nat).upstreamAcks,
        e = some 0) := by
  decide

/-- Witness for `fanOut_upstream_ack_error` at `n = 1`, `errs = [some 2]`. -/
theorem fanOut_upstream_ack_error_witness :
    ([some 2] : List (Option Nat)).length = 1 ∧ 1 ≤ 1 ∧
      ((fanOutRun 1 [some 2] : FanOutAckState Nat).upstreamAcks.head?
          = some (((([some 2] : List (Option Nat)).filter
              fun e => e.isSome).head?).getD none) ∧
        ∀ e ∈ (fanOutRun 1 [some 2] : FanOutAckState Nat).upstreamAcks,
          (e = none ↔ (([some 2] : List (Option Nat)).all
              fun x => x.isNone) = true)) :=
  ⟨rfl, le_rfl, fanOut_upstream_ack_error Nat 1 [some 2] rfl le_rfl⟩

/-- Claim C3, amended: in runs where every child acks nil, no upstream ack is
made before all `n` child ack callbacks have fired, and exactly one upstream
ack is made once they all have.  (When a child acks with a non-nil error the
broker acks upstream immediately at that point, possibly before the remaining
children have acked; see the counterexample.) -/
theorem fanOut_ack_after_all_children (E : Type) (n : Nat)
    (errs : List (Option E)) (hlen : errs.length = n) (hn : 1 ≤ n)
    (hnil : (errs.all fun e => e.isNone) = true) :
    (∀ j, j < n → (fanOutRun n (errs.take j)).upstreamAcks = []) ∧
      (fanOutRun n errs).upstreamAcks = [none] := by
  constructor
  · intro j hj
    have hjlen : (errs.take j).length = j := by
      rw [List.length_take]
      omega
    have hnilj : ∀ e ∈ errs.take j, e.isNone = true := by
      intro e he
      exact (List.all_eq_true.mp hnil) e (List.mem_of_mem_take he)
    have := fanOutAckSeq_of_lt (errs.take j) (n : Int) []
      hnilj (by rw [hjlen]; exact_mod_cast hj)
    simp only [fanOutRun, this]
  · rw [fanOutRun_acks n errs hlen hn, if_pos hnil]

/-- Counterexample to claim C3 as stated: with `n = 2` children, if the first
child to ack does so with a non-nil error, the upstream ack fires immediately —
before the second child's ack callback has fired. -/
theorem fanOut_ack_after_all_children_counterexample :
    ¬ (∀ j, j < 2 →
        (fanOutRun 2 (([some 0, none] : List (Option Nat)).take j)).upstreamAcks
          = []) := by
  decide

/-- Witness for `fanOut_ack_after_all_children` at `n = 2`,
`errs = [none, none]`. -/
theorem fanOut_ack_after_all_children_witness :
    ([none, none] : List (Option Nat)).length = 2 ∧ 1 ≤ 2 ∧
      (([none, none] : List (Option Nat)).all fun e => e.isNone) = true ∧
      ((∀ j, j < 2 →
          (fanOutRun 2 (([none, none] : List (Option Nat)).take j)).upstreamAcks
            = []) ∧
        (fanOutRun 2 ([none, none] : List (Option Nat))).upstreamAcks
          = [none]) :=
  ⟨rfl, by decide, by decide,
    fanOut_ack_after_all_children Nat 2 [none, none] rfl (by decide) (by decide)⟩

/-! ## Streamed output `Consume` contract

`fanOutOutputBroker.Consume` and `Resource.Consume` both guard on the stored
`transactions` channel:

```
if o.transactions != nil {
    return component.ErrAlreadyStarted
}
o.transactions = transactions
go o.loop()
return nil
```

The stored channel is modelled as `Option C` (`none` = Go `nil`, the state set
by the constructor); a call returns the error result together with the stored
channel afterwards. -/

/-- `fanOutOutputBroker.Consume` from `output_broker_fan_out.go`. -/
def fanOutConsume {C : Type} (transactions : Option C) (incoming : C) :
    Option ComponentError × Option C :=
  if transactions.isSome = true then (some .errAlreadyStarted, transactions)
  else (none, some incoming)

/-- `Resource.Consume` from `resource.go` (same guard as the fan-out broker). -/
def resourceConsume {C : Type} (transactions : Option C) (incoming : C) :
    Option ComponentError × Option C :=
  if transactions.isSome = true then (some .errAlreadyStarted, transactions)
  else (none, some incoming)

/-- Claim C8: for the fan-out broker and the resource output, the first call to
`Consume` returns nil and binds the incoming edge, and every subsequent call on
the same instance returns `ErrAlreadyStarted` and leaves the bound edge
unchanged. -/
theorem consume_twice_already_started (C : Type) (ts ts2 : C) :
    fanOutConsume none ts = (none, some ts) ∧
      fanOutConsume (some ts) ts2 = (some .errAlreadyStarted, some ts) ∧
      resourceConsume none ts = (none, some ts) ∧
      resourceConsume (some ts) ts2 = (some .errAlreadyStarted, some ts) := by
  refine ⟨?_, ?_, ?_, ?_⟩ <;> simp [fanOutConsume, resourceConsume]

/-! ## `WaitForClose` truthfulness

`fanOutOutputBroker.WaitForClose` selects on the signaller's has-closed channel
against the timeout, and `Resource.WaitForClose` selects on its context's done
channel against the timeout: both return `ErrTimeout` unless shutdown has
completed within the timeout.  We model the select by its outcome: whether the
awaited close event occurred within the timeout.

The MQTT and redis-list writers instead implement

```
func (m *MQTT) WaitForClose(timeout time.Duration) error {
    return nil
}
```

ignoring both the timeout and the driver state (the Boolean below records
whether `m.client`/`r.client` is still live, i.e. whether the asynchronous
disconnect issued by `CloseAsync` has completed). -/

/-- `fanOutOutputBroker.WaitForClose`: nil if the signaller reported closed
within the timeout, `ErrTimeout` otherwise. -/
def fanOutWaitForClose (hasClosedWithinTimeout : Bool) : Option ComponentError :=
  if hasClosedWithinTimeout then none else some .errTimeout

/-- `Resource.WaitForClose`: nil if the context was cancelled within the
timeout, `ErrTimeout` otherwise. -/
def resourceWaitForClose (ctxDoneWithinTimeout : Bool) : Option ComponentError :=
  if ctxDoneWithinTimeout then none else some .errTimeout

/-- `MQTT.WaitForClose`: returns nil unconditionally, whatever the client state
and timeout. -/
def mqttWaitForClose (clientActive : Bool) (timeoutMillis : Nat) :
    Option ComponentError :=
  none

/-- `RedisList.WaitForClose`: returns nil unconditionally, whatever the client
state and timeout. -/
def redisListWaitForClose (clientActive : Bool) (timeoutMillis : Nat) :
    Option ComponentError :=
  none

/-- Claim C4 (code bug): the fan-out broker and resource output honour the
contract (nil only once closed, `ErrTimeout` otherwise), but the MQTT and
redis-list writers return nil from `WaitForClose` even while their client is
still live (driver-side shutdown not completed), contradicting the claim and
the functions' own doc comments ("blocks until the output has closed down"). -/
theorem waitForClose_driver_divergence :
    fanOutWaitForClose false = some .errTimeout ∧
      resourceWaitForClose false = some .errTimeout ∧
      mqttWaitForClose true 30000 = none ∧
      redisListWaitForClose true 30000 = none :=
  ⟨rfl, rfl, rfl, rfl⟩

/-! ## Resource output construction -/

/-- Construction error from `NewResource` (the message of
`fmt.Errorf` carrying the missing label). -/
inductive ResourceConstructErr where
  | outputResourceNotFound (label : String)
deriving DecidableEq

/-- The resource output value built by `NewResource` (the fields relevant to
the embedding: the stored label and the not-yet-bound transaction channel). -/
structure ResourceOutput where
  name : String
deriving DecidableEq

/-- `NewResource` from `resource.go`:

```
if !mgr.ProbeOutput(conf.Resource) {
    return nil, fmt.Errorf("output resource ... was not found", conf.Resource)
}
...
return &Resource{...}, nil
```

The manager is modelled by its `ProbeOutput` predicate. -/
def NewResource (probeOutput : String → Bool) (resourceLabel : String) :
    Except ResourceConstructErr ResourceOutput :=
  if probeOutput resourceLabel = false then
    .error (.outputResourceNotFound resourceLabel)
  else
    .ok { name := resourceLabel }

/-- Claim C10: constructing a resource output for a label the manager does not
hold (`ProbeOutput` returns false) fails synchronously: `NewResource` returns
an error and no component. -/
theorem newResource_unknown_label_fails (probeOutput : String → Bool)
    (resourceLabel : String) (h : probeOutput resourceLabel = false) :
    NewResource probeOutput resourceLabel
      = .error (.outputResourceNotFound resourceLabel) := by
  rw [NewResource, if_pos h]

/-- Witness for `newResource_unknown_label_fails` with an empty manager and the
label `foo`. -/
theorem newResource_unknown_label_fails_witness :
    (fun _ : String => false) "foo" = false ∧
      NewResource (fun _ => false) "foo"
        = .error (.outputResourceNotFound "foo") :=
  ⟨rfl, newResource_unknown_label_fails (fun _ => false) "foo" rfl⟩

/-! ## Redis list writer: batch errors

`RedisList.WriteWithContext` (redis_list.go): with no client, return
`ErrNotConnected`; with a single part, one `RPush` whose failure maps to
`ErrNotConnected`; otherwise a pipelined `RPush` per part, where a failed
`Exec` maps to `ErrNotConnected` and per-command failures are collected:

```
var batchErr *ibatch.Error
for i, res := range cmders {
    if res.Err() != nil {
        if batchErr == nil {
            batchErr = ibatch.NewError(msg, res.Err())
        }
        batchErr.Failed(i, res.Err())
    }
}
if batchErr != nil {
    return batchErr
}
return nil
```

The redis server's behaviour is an oracle: the error of the single `RPush`,
the error of `Exec`, and the per-command errors of the pipelined run. -/

/-- Modelled from the spec: `ibatch.Error` (package `internal/batch` is not
under the sources) is "a structured error carrying per-index outcomes enabling
partial retry"; we record it as the list of (index, error) outcomes that
`batchErr.Failed(i, res.Err())` accumulates. -/
inductive RedisWriteResult (E : Type) where
  | ok
  | errNotConnected
  | batchError (failed : List (Nat × E))
deriving DecidableEq

/-- The `for i, res := range cmders` accumulation loop: the (index, error)
outcomes of the failed commands, indices counted from `i`. -/
def redisFailedOutcomes {E : Type} : Nat → List (Option E) → List (Nat × E)
  | _, [] => []
  | i, none :: rest => redisFailedOutcomes (i + 1) rest
  | i, some e :: rest => (i, e) :: redisFailedOutcomes (i + 1) rest

/-- `RedisList.WriteWithContext`, with the redis responses passed as oracles:
`singlePushErr` is the result of the lone `RPush` on the one-part path,
`pipeExecErr` the result of `pipe.Exec()`, and `cmdErrs` the per-command
results (one per part, in order). -/
def redisListWriteWithContext {P E : Type} (clientConnected : Bool)
    (parts : List P) (singlePushErr : Option E) (pipeExecErr : Option E)
    (cmdErrs : List (Option E)) : RedisWriteResult E :=
  if clientConnected = false then .errNotConnected
  else if parts.length = 1 then
    match singlePushErr with
    | some _ => .errNotConnected
    | none => .ok
  else if pipeExecErr.isSome = true then .errNotConnected
  else
    match redisFailedOutcomes 0 cmdErrs with
    | [] => .ok
    | f :: fs => .batchError (f :: fs)

/-- The accumulation loop records nothing exactly when every command
succeeded. -/
lemma redisFailedOutcomes_eq_nil {E : Type} :
    ∀ (cmdErrs : List (Option E)) (i : Nat),
      redisFailedOutcomes i cmdErrs = [] ↔ ∀ e ∈ cmdErrs, e = none := by
  intro cmdErrs
  induction cmdErrs with
  | nil => intro i; simp [redisFailedOutcomes]
  | cons a rest ih =>
    intro i
    cases a with
    | none => simp [redisFailedOutcomes, ih (i + 1)]
    | some e => simp [redisFailedOutcomes]

/-- Membership in the accumulated outcomes is exactly failure of the command at
that index. -/
lemma mem_redisFailedOutcomes {E : Type} :
    ∀ (cmdErrs : List (Option E)) (i j : Nat) (e : E),
      (j, e) ∈ redisFailedOutcomes i cmdErrs
        ↔ ∃ k, j = i + k ∧ cmdErrs.get? k = some (some e) := by
  intro cmdErrs
  induction cmdErrs with
  | nil =>
    intro i j e
    simp [redisFailedOutcomes]
  | cons a rest ih =>
    intro i j e
    cases a with
    | none =>
      rw [redisFailedOutcomes, ih (i + 1) j e]
      constructor
      · rintro ⟨k, hk, hget⟩
        exact ⟨k + 1, by omega, by simpa using hget⟩
      · rintro ⟨k, hk, hget⟩
        cases k with
        | zero => simp at hget
        | succ k2 =>
          exact ⟨k2, by omega, by simpa using hget⟩
    | some f =>
      rw [redisFailedOutcomes]
      constructor
      · intro hmem
        rcases List.mem_cons.mp hmem with heq | htail
        · refine ⟨0, ?_, ?_⟩
          · simpa using congrArg Prod.fst heq
          · have : e = f := by simpa using congrArg Prod.snd heq
            simp [this]
        · rcases (ih (i + 1) j e).mp htail with ⟨k, hk, hget⟩
          exact ⟨k + 1, by omega, by simpa using hget⟩
      · rintro ⟨k, hk, hget⟩
        cases k with
        | zero =>
          have hef : f = e := by simpa using hget
          have hji : j = i := by omega
          subst hef hji
          exact List.mem_cons_self _ _
        | succ k2 =>
          refine List.mem_cons_of_mem _ ?_
          exact (ih (i + 1) j e).mpr ⟨k2, by omega, by simpa using hget⟩

/-- Claim C5: for a connected redis list writer and a batch of more than one
part whose pipelined exec succeeds, the write returns nil exactly when every
command succeeded, and otherwise returns a structured batch error whose
recorded (index, error) outcomes are exactly the indices whose command
failed. -/
theorem redisList_write_batch_outcomes (P E : Type) (parts : List P)
    (singlePushErr : Option E) (cmdErrs : List (Option E))
    (hp : 1 < parts.length) :
    (redisListWriteWithContext true parts singlePushErr none cmdErrs
        = .ok ↔ ∀ e ∈ cmdErrs, e = none) ∧
      ∀ fl, redisListWriteWithContext true parts singlePushErr none cmdErrs
          = .batchError fl →
        ∀ j e, ((j, e) ∈ fl ↔ cmdErrs.get? j = some (some e)) := by
  have hone : ¬ parts.length = 1 := by omega
  rw [redisListWriteWithContext.eq_def]
  simp only [Bool.true_eq_false, if_false, hone, Option.isSome_none,
    Bool.false_eq_true]
  cases hout : redisFailedOutcomes 0 cmdErrs with
  | nil =>
    constructor
    · simp only [if_false]
      constructor
      · intro _
        exact (redisFailedOutcomes_eq_nil cmdErrs 0).mp hout
      · intro _
        trivial
    · intro fl hfl
      simp at hfl
  | cons f fs =>
    constructor
    · simp only [if_false]
      constructor
      · intro h
        simp at h
      · intro hall
        have : redisFailedOutcomes 0 cmdErrs = [] :=
          (redisFailedOutcomes_eq_nil cmdErrs 0).mpr hall
        rw [hout] at this
        simp at this
    · intro fl hfl j e
      simp only [if_false, RedisWriteResult.batchError.injEq] at hfl
      subst hfl
      rw [← hout, mem_redisFailedOutcomes cmdErrs 0 j e]
      constructor
      · rintro ⟨k, hk, hget⟩
        have : j = k := by omega
        subst this
        exact hget
      · intro hget
        exact ⟨j, by omega, hget⟩

/-- Witness for `redisList_write_batch_outcomes` on a three-part batch where
the command at index 1 failed with error `5`. -/
theorem redisList_write_batch_outcomes_witness :
    1 < ([10, 11, 12] : List Nat).length ∧
      ((redisListWriteWithContext true ([10, 11, 12] : List Nat)
          (none : Option Nat) none [none, some 5, none]
          = .ok ↔ ∀ e ∈ ([none, some 5, none] : List (Option Nat)), e = none) ∧
        ∀ fl, redisListWriteWithContext true ([10, 11, 12] : List Nat)
            (none : Option Nat) none [none, some 5, none]
            = .batchError fl →
          ∀ j e, ((j, e) ∈ fl
            ↔ ([none, some 5, none] : List (Option Nat)).get? j
                = some (some e))) :=
  ⟨by decide,
    redisList_write_batch_outcomes Nat Nat [10, 11, 12] none [none, some 5, none]
      (by decide)⟩

/-! ## Archive processor: payload formats

Bytes are modelled as `List Nat` (each entry one byte value).  The archive
processor's `binary` format is produced by `message.ToBytes` (package
`internal/message` is not under the sources); its layout is documented in the
processor's own `TypeSpec` footnotes in archive.go:

- four bytes containing the number of messages in the batch (in big endian),
- for each message part: four bytes containing the length of the message (in
  big endian) followed by the content of the message.

The `lines` format (`linesArchive`) joins the raw contents of the parts with a
line break (`bytes.Join(tmpParts, []byte("\n"))`), and `concatenate`
(`concatenateArchive`) just concatenates them. -/

/-- A 32-bit big-endian length field: the four bytes of `n` (most significant
first). -/
def beBytes4 (n : Nat) : List Nat :=
  [n / 16777216 % 256, n / 65536 % 256, n / 256 % 256, n % 256]

/-- `binary` format payload of a batch (the layout of `message.ToBytes`
documented in the archive processor's footnotes). -/
def binaryArchiveBytes (parts : List (List Nat)) : List Nat :=
  beBytes4 parts.length
    ++ (parts.map (fun p => beBytes4 p.length ++ p)).flatten

/-- `lines` format payload of a batch (`linesArchive` in archive.go): the raw
contents joined with the line-break byte `10`. -/
def linesArchiveBytes (parts : List (List Nat)) : List Nat :=
  List.intercalate [10] parts

/-- `concatenate` format payload of a batch (`concatenateArchive` in
archive.go). -/
def concatenateArchiveBytes (parts : List (List Nat)) : List Nat :=
  parts.flatten

/-- Read one 32-bit big-endian field off the front of a byte stream. -/
def readBE4 : List Nat → Option (Nat × List Nat)
  | a :: b :: c :: d :: rest => some (a * 16777216 + b * 65536 + c * 256 + d, rest)
  | _ => none

/-- Read `n` length-tagged chunks, consuming the stream exactly. -/
def readSizedChunks : Nat → List Nat → Option (List (List Nat))
  | 0, bs => if bs = [] then some [] else none
  | n + 1, bs =>
    (readBE4 bs).bind fun lenRest =>
      if lenRest.1 ≤ lenRest.2.length then
        (readSizedChunks n (lenRest.2.drop lenRest.1)).map
          fun tail => lenRest.2.take lenRest.1 :: tail
      else none

/-- Modelled from the spec: the unarchive side of the `binary` round-trip law
(the unarchive processor and `message.FromBytes` are not under the sources);
it reads back the documented layout: a four-byte big-endian part count, then
per part a four-byte big-endian length followed by the content. -/
def binaryUnarchiveBytes (bs : List Nat) : Option (List (List Nat)) :=
  match readBE4 bs with
  | none => none
  | some (n, rest) => readSizedChunks n rest

/-- Modelled from the spec: the unarchive side of the `lines` format ("join the
raw contents ... and insert a line break between each one" inverted): split the
payload at each line-break byte `10`. -/
def linesUnarchiveBytes : List Nat → List (List Nat)
  | [] => [[]]
  | b :: rest =>
    match linesUnarchiveBytes rest with
    | [] => [[]]
    | cur :: done => if b = 10 then [] :: cur :: done else (b :: cur) :: done

/-- Serialising a value below `2^32` as four big-endian bytes and reading it
back yields the value and leaves the remaining stream untouched. -/
lemma readBE4_beBytes4 (n : Nat) (rest : List Nat) (h : n < 4294967296) :
    readBE4 (beBytes4 n ++ rest) = some (n, rest) := by
  simp only [beBytes4, List.cons_append, List.nil_append, readBE4]
  congr 1
  congr 1
  omega

/-- Reading back the body of a `binary` archive recovers the parts. -/
lemma readSizedChunks_body (parts : List (List Nat))
    (h : ∀ p ∈ parts, p.length < 4294967296) :
    readSizedChunks parts.length
        ((parts.map (fun p => beBytes4 p.length ++ p)).flatten)
      = some parts := by
  induction parts with
  | nil => simp [readSizedChunks]
  | cons p rest ih =>
    have hp : p.length < 4294967296 := h p (by simp)
    have hrest : ∀ q ∈ rest, q.length < 4294967296 :=
      fun q hq => h q (by simp [hq])
    simp only [List.map_cons, List.flatten_cons, List.length_cons]
    rw [List.append_assoc]
    rw [readSizedChunks, readBE4_beBytes4 p.length _ hp, Option.some_bind]
    have hle : p.length
        ≤ (p ++ (rest.map (fun q => beBytes4 q.length ++ q)).flatten).length := by
      simp
    rw [if_pos hle]
    rw [List.take_left, List.drop_left]
    rw [ih hrest]
    rfl

/-- Claim C6, amended: for the `binary` archive format and every batch whose
part count and part lengths fit in the documented 32-bit big-endian fields,
unarchiving the archived payload yields exactly the original sequence of part
payloads (the archived part's metadata being that of the first part).  The law
fails for the `lines` format whenever a part contains a line-break byte, even
with identically sized parts (see the counterexample). -/
theorem binary_archive_roundtrip (parts : List (List Nat))
    (h1 : ∀ p ∈ parts, p.length < 4294967296)
    (h2 : parts.length < 4294967296) :
    binaryUnarchiveBytes (binaryArchiveBytes parts) = some parts := by
  rw [binaryUnarchiveBytes.eq_def, binaryArchiveBytes,
    readBE4_beBytes4 parts.length _ h2]
  exact readSizedChunks_body parts h1

/-- Counterexample to claim C6 as stated: for the `lines` format and the batch
whose parts are the single bytes `10` (a line break) and `65`, which are
identically sized, the round trip yields three parts, not the original two. -/
theorem lines_archive_roundtrip_counterexample :
    (([[10], [65]] : List (List Nat)).all fun p => p.length = 1) = true ∧
      linesUnarchiveBytes (linesArchiveBytes [[10], [65]]) ≠ [[10], [65]] := by
  decide

/-- Witness for `binary_archive_roundtrip` on the batch `[[1, 2], [3, 4]]`. -/
theorem binary_archive_roundtrip_witness :
    (∀ p ∈ ([[1, 2], [3, 4]] : List (List Nat)), p.length < 4294967296) ∧
      ([[1, 2], [3, 4]] : List (List Nat)).length < 4294967296 ∧
      binaryUnarchiveBytes (binaryArchiveBytes [[1, 2], [3, 4]])
        = some [[1, 2], [3, 4]] :=
  ⟨by decide, by decide,
    binary_archive_roundtrip [[1, 2], [3, 4]] (by decide) (by decide)⟩

/-! ## Archive processor: `ProcessBatch`

A message part is an opaque payload plus metadata (`M`, kept abstract) plus
the collapsed count used for downstream ack accounting.  `Part.Copy` copies
payload and metadata; `Part.Set` replaces the payload.  Each archive function
in archive.go follows the shape

```
newPart := msg.Get(0).Copy()
newPart.Set(<format payload of msg>)
return newPart, nil
```

and `ProcessBatch` then wraps the single resulting part:

```
if msg.Len() == 0 {
    return nil, nil
}
newMsg := msg.Copy()
newPart, err := d.archive(d.createHeaderFunc(msg), msg)
if err != nil { ...; return nil, err }
newPart = batch.WithCollapsedCount(newPart, msg.Len())
newMsg.SetAll([]*message.Part{newPart})
return [newMsg], nil
```

The `tar`, `zip` and `json_array` formats delegate to external codecs
(`archive/tar`, `archive/zip`, JSON), declared out of scope by the spec; the
three self-contained formats `binary`, `lines` and `concatenate` are embedded
in full. -/

/-- A message part: payload bytes, metadata, and the collapsed count (1 for an
ordinary part). -/
structure MessagePart (M : Type) where
  payload : List Nat
  meta : M
  collapsedCount : Nat := 1

/-- Modelled from the spec: `batch.WithCollapsedCount` (package
`internal/batch` is not under the sources) sets the part's collapsed count "so
that downstream ack accounting reflects the original batch size". -/
def WithCollapsedCount {M : Type} (p : MessagePart M) (n : Nat) :
    MessagePart M :=
  { p with collapsedCount := n }

/-- `binaryArchive` from archive.go: the first part's copy with its payload
replaced by the `binary` blob of the whole batch (`none` on an empty batch,
where `msg.Get(0)` has no part to copy; `ProcessBatch` guards that case). -/
def binaryArchivePart {M : Type} (msg : List (MessagePart M)) :
    Option (MessagePart M) :=
  match msg with
  | [] => none
  | p0 :: rest =>
    some { p0 with payload := binaryArchiveBytes ((p0 :: rest).map fun p => p.payload) }

/-- `linesArchive` from archive.go: the first part's copy with its payload
replaced by the parts joined with a line break. -/
def linesArchivePart {M : Type} (msg : List (MessagePart M)) :
    Option (MessagePart M) :=
  match msg with
  | [] => none
  | p0 :: rest =>
    some { p0 with payload := linesArchiveBytes ((p0 :: rest).map fun p => p.payload) }

/-- `concatenateArchive` from archive.go: the first part's copy with its
payload replaced by the concatenated contents. -/
def concatenateArchivePart {M : Type} (msg : List (MessagePart M)) :
    Option (MessagePart M) :=
  match msg with
  | [] => none
  | p0 :: rest =>
    some { p0 with payload := concatenateArchiveBytes ((p0 :: rest).map fun p => p.payload) }

/-- The self-contained archive formats (see `strToArchiver` in archive.go; the
`tar`, `zip` and `json_array` cases wrap external codecs). -/
inductive ArchiveFormatModel where
  | binary
  | lines
  | concatenate
deriving DecidableEq

/-- The `strToArchiver` dispatch restricted to the embedded formats. -/
def strToArchiverModel {M : Type} :
    ArchiveFormatModel → (List (MessagePart M) → Option (MessagePart M))
  | .binary => binaryArchivePart
  | .lines => linesArchivePart
  | .concatenate => concatenateArchivePart

/-- The result of `archive.ProcessBatch`: either a list of output batches with
a nil error, or no batches and a non-nil error. -/
inductive ProcBatchResult (M : Type) where
  | batches (bs : List (List (MessagePart M)))
  | failed

/-- `archive.ProcessBatch` from archive.go, parameterised by the archive
function selected at construction time. -/
def archiveProcessBatch {M : Type}
    (archiver : List (MessagePart M) → Option (MessagePart M))
    (msg : List (MessagePart M)) : ProcBatchResult M :=
  if msg.length = 0 then .batches []
  else
    match archiver msg with
    | none => .failed
    | some newPart => .batches [[WithCollapsedCount newPart msg.length]]

/-- Claim C7: for every non-empty batch and each embedded archive format,
`ProcessBatch` returns exactly one output batch containing exactly one part;
that part carries the metadata of the first input part and a collapsed count
equal to the input batch's length. -/
theorem archive_processBatch_single_collapsed_part (M : Type)
    (fmt : ArchiveFormatModel) (p0 : MessagePart M)
    (rest : List (MessagePart M)) :
    ∃ payloadBytes,
      archiveProcessBatch (strToArchiverModel fmt) (p0 :: rest)
        = .batches [[{ payload := payloadBytes, meta := p0.meta,
                       collapsedCount := (p0 :: rest).length }]] := by
  cases fmt <;> exact ⟨_, rfl⟩

/-- Claim C9: a batch of size 0 into the archive processor produces zero
output batches and a nil error, whatever the archive function. -/
theorem archive_processBatch_empty (M : Type)
    (archiver : List (MessagePart M) → Option (MessagePart M)) :
    archiveProcessBatch archiver [] = .batches [] := by
  simp [archiveProcessBatch]
